import Mathlib

/-!
Verification of the omc3 global-correction core against its specification.

The numeric computations of the repository are embedded over `ℚ` (exact
arithmetic standing in for the floating-point values of the Python source),
lists and `Fin`-indexed vectors.  Functions present under `src/` are
translated directly from the Python; components of the repository whose
source is not included (the pseudoinverse solver and the iteration
controller) are modelled from the specification text, and each such
definition says so in its doc comment.
-/

namespace Omc3

/-! ## Phase/tune folding (from `tests/accuracy/test_harpy.py`, `_angle_diff`) -/

/-- The scalar `np.sign`: `1` for positive, `-1` for negative, `0` for zero. -/
def npSign (x : ℚ) : ℚ :=
  if 0 < x then 1 else if x < 0 then -1 else 0

/-- The folding applied to a phase-like residual `ang`, as in the source
`np.where(np.abs(ang) > 0.5, ang - np.sign(ang), ang)`: when `|ang| > 0.5`
the sign of `ang` is subtracted, otherwise `ang` is returned unchanged. -/
def fold (ang : ℚ) : ℚ :=
  if 1/2 < |ang| then ang - npSign ang else ang

/-- Source `_angle_diff(a, b)`: `ang = a - b` followed by folding. -/
def angle_diff (a b : ℚ) : ℚ :=
  fold (a - b)

end Omc3

namespace Omc3

/-- Evaluation of `fold` at `2`: the condition `|2| > 1/2` holds, so the
sign (`1`) is subtracted once and the result is `1`. -/
theorem fold_two_eq_one : fold 2 = 1 := by
  rw [fold, abs_of_pos (by norm_num : (0:ℚ) < 2), if_pos (by norm_num),
    npSign, if_pos (by norm_num : (0:ℚ) < 2)]
  norm_num

/-- C1 (counterexample): the claim "for every real residual `d`,
`fold d ∈ [-0.5, 0.5]`" fails at `d = 2`, where `fold 2 = 1`. -/
theorem fold_range_counterexample :
    ¬ (-(1/2) ≤ fold 2 ∧ fold 2 ≤ 1/2) := by
  rw [fold_two_eq_one]
  norm_num

/-- C1 (amended): the folding function satisfies `fold d ≡ d (mod 1)` for
every real `d` (their difference is an integer); `fold d ∈ [-1/2, 1/2]`
for every `d` with `|d| ≤ 3/2`; and for every `d` with `|d| > 3/2` the
singly-folded value lies outside `[-1/2, 1/2]`. -/
theorem fold_range_and_mod_one :
    (∀ d : ℚ, ∃ k : ℤ, fold d - d = (k : ℚ)) ∧
    (∀ d : ℚ, |d| ≤ 3/2 → -(1/2) ≤ fold d ∧ fold d ≤ 1/2) ∧
    (∀ d : ℚ, 3/2 < |d| → ¬(-(1/2) ≤ fold d ∧ fold d ≤ 1/2)) := by
  refine ⟨?_, ?_, ?_⟩
  · intro d
    unfold fold npSign
    split_ifs with h1 h2 h3
    · exact ⟨-1, by push_cast; ring⟩
    · exact ⟨1, by push_cast; ring⟩
    · exact ⟨0, by push_cast; ring⟩
    · exact ⟨0, by push_cast; ring⟩
  · intro d h
    have hb : -(3/2) ≤ d ∧ d ≤ 3/2 := abs_le.mp h
    unfold fold npSign
    split_ifs with h1 h2 h3
    · rw [abs_of_pos h2] at h1
      constructor <;> linarith [hb.2]
    · rw [abs_of_neg h3] at h1
      constructor <;> linarith [hb.1]
    · have hd : d = 0 := le_antisymm (not_lt.mp h2) (not_lt.mp h3)
      rw [hd] at h1
      norm_num at h1
    · rw [not_lt, abs_le] at h1
      exact h1
  · intro d hd hcon
    unfold fold npSign at hcon
    split_ifs at hcon with h1 h2 h3
    · rw [abs_of_pos h2] at hd
      linarith [hcon.2]
    · rw [abs_of_neg h3] at hd
      linarith [hcon.1]
    · have hz : d = 0 := le_antisymm (not_lt.mp h2) (not_lt.mp h3)
      rw [hz] at hd
      norm_num at hd
    · rw [not_lt] at h1
      linarith

/-- Witness for C1 (amended): the congruence at `d = 1`, the range
clause at `d = 1` (inside `[-3/2, 3/2]`), and the outside clause at
`d = 2`. -/
theorem fold_range_and_mod_one_witness :
    (∃ k : ℤ, fold 1 - 1 = (k : ℚ)) ∧
      (-(1/2) ≤ fold 1 ∧ fold 1 ≤ 1/2) ∧
      ¬(-(1/2) ≤ fold 2 ∧ fold 2 ≤ 1/2) :=
  ⟨fold_range_and_mod_one.1 1,
   fold_range_and_mod_one.2.1 1 (by rw [abs_one]; norm_num),
   fold_range_and_mod_one.2.2 2
     (by rw [abs_of_pos (by norm_num : (0:ℚ) < 2)]; norm_num)⟩

/-- C2: folding is applied only for `|raw|` strictly greater than `1/2`;
at the boundary values `raw = 1/2` and `raw = -1/2` the residual is
returned unchanged. -/
theorem fold_boundary_unchanged :
    fold (1/2) = 1/2 ∧ fold (-(1/2)) = -(1/2) := by
  constructor
  · rw [fold, abs_of_pos (by norm_num : (0:ℚ) < 1/2), if_neg (by norm_num)]
  · rw [fold, abs_of_neg (by norm_num : -(1/2 : ℚ) < 0), if_neg (by norm_num)]

end Omc3

namespace Omc3

/-! ## Weighted pseudoinverse solver (Modelled from the spec, §4.3)

The solver source itself is not part of the excerpt; only its tests are.
The definitions below follow the specification's algorithm: weight the
rows of the response matrix and the residual, decompose the weighted
matrix as `U Σ Vᵀ`, zero out every singular value below
`svd_cutoff × max(singular_values)` in the pseudoinverse, and apply it
to the weighted residual.  The decomposition is taken as input data
(`SVD`), since computing one is not expressible in exact arithmetic;
theorems that need it assume the orthonormality that makes it an SVD. -/

/-- Modelled from the spec: the singular value decomposition of the
weighted response matrix, given as `r` triples `(σ i, U i, V i)` of a
singular value, a left singular vector of length `m` (observables) and a
right singular vector of length `n` (variables). -/
structure SVD (m n r : ℕ) where
  sigma : Fin r → ℚ
  U : Fin r → Fin m → ℚ
  V : Fin r → Fin n → ℚ

/-- Dot product of two `Fin k`-indexed rational vectors. -/
def dot {k : ℕ} (x y : Fin k → ℚ) : ℚ := ∑ i, x i * y i

/-- Largest singular value of the decomposition (`0` when `r = 0`). -/
def sigmaMax {m n r : ℕ} (svd : SVD m n r) : ℚ :=
  (List.ofFn svd.sigma).foldr max 0

/-- Modelled from the spec: the reciprocal used for singular direction `i`
in the truncated pseudoinverse — `0` when `σ i` falls below
`cutoff × max(singular_values)`, otherwise `1 / σ i`. -/
def svdCoeff {m n r : ℕ} (svd : SVD m n r) (cutoff : ℚ) (i : Fin r) : ℚ :=
  if svd.sigma i < cutoff * sigmaMax svd then 0 else 1 / svd.sigma i

/-- Modelled from the spec: apply the truncated pseudoinverse
`V Σ⁺ Uᵀ` to a vector `b`. -/
def applyPinv {m n r : ℕ} (svd : SVD m n r) (cutoff : ℚ) (b : Fin m → ℚ)
    (j : Fin n) : ℚ :=
  ∑ i, svdCoeff svd cutoff i * dot (svd.U i) b * svd.V i j

/-- Modelled from the spec: `solve(response_matrix, residual, weights,
svd_cutoff)` — scale each residual entry by its weight (the matching row
scaling is already reflected in `svd`, the decomposition of the weighted
matrix) and apply the truncated pseudoinverse. -/
def solve {m n r : ℕ} (svd : SVD m n r) (cutoff : ℚ) (w x : Fin m → ℚ)
    (j : Fin n) : ℚ :=
  applyPinv svd cutoff (fun i => w i * x i) j

/-- The right singular vectors are orthonormal — part of `svd` being a
genuine singular value decomposition. -/
def OrthonormalV {m n r : ℕ} (svd : SVD m n r) : Prop :=
  ∀ i j : Fin r, dot (svd.V i) (svd.V j) = if i = j then 1 else 0

end Omc3

namespace Omc3

/-- Bilinearity helper: the dot product of a linear combination of the
rows of `V` with a vector `u` is the matching combination of
`dot (V i) u`. -/
lemma dot_weighted_sum {n r : ℕ} (c : Fin r → ℚ) (V : Fin r → Fin n → ℚ)
    (u : Fin n → ℚ) :
    dot (fun k => ∑ i, c i * V i k) u = ∑ i, c i * dot (V i) u := by
  unfold dot
  calc ∑ k, (∑ i, c i * V i k) * u k
      = ∑ k, ∑ i, c i * (V i k * u k) := by
        refine Finset.sum_congr rfl (fun k _ => ?_)
        rw [Finset.sum_mul]
        exact Finset.sum_congr rfl (fun i _ => by ring)
    _ = ∑ i, ∑ k, c i * (V i k * u k) := Finset.sum_comm
    _ = ∑ i, c i * ∑ k, V i k * u k := by
        refine Finset.sum_congr rfl (fun i _ => ?_)
        rw [Finset.mul_sum]

/-- C3: for every decomposed weighted response matrix with orthonormal
right singular vectors, every residual vector, weight vector and cutoff,
a singular direction whose singular value is smaller than
`cutoff × max(singular_values)` contributes nothing to the returned
correction: the solution has zero component along that right singular
vector. -/
theorem solve_truncated_direction_zero {m n r : ℕ} (svd : SVD m n r)
    (cutoff : ℚ) (w x : Fin m → ℚ) (j : Fin r)
    (hV : OrthonormalV svd)
    (hj : svd.sigma j < cutoff * sigmaMax svd) :
    dot (fun k => solve svd cutoff w x k) (svd.V j) = 0 := by
  have hrw : (fun k => solve svd cutoff w x k)
      = fun k => ∑ i, (svdCoeff svd cutoff i *
          dot (svd.U i) (fun t => w t * x t)) * svd.V i k := by
    funext k
    simp only [solve, applyPinv]
  rw [hrw, dot_weighted_sum]
  have hz : ∀ i : Fin r,
      svdCoeff svd cutoff i * dot (svd.U i) (fun t => w t * x t)
          * dot (svd.V i) (svd.V j)
        = if i = j then
            svdCoeff svd cutoff i * dot (svd.U i) (fun t => w t * x t)
          else 0 := by
    intro i
    rw [hV i j]
    split_ifs <;> ring
  rw [Finset.sum_congr rfl (fun i _ => hz i), Finset.sum_ite_eq' Finset.univ j,
    if_pos (Finset.mem_univ j), svdCoeff, if_pos hj, zero_mul]

/-- Witness for C3: a rank-1 decomposition with `σ = 1`, `cutoff = 2`, so
`σ < cutoff × σmax`; the solution is orthogonal to the truncated
direction. -/
theorem solve_truncated_direction_zero_witness :
    dot (fun k => solve (SVD.mk (fun _ => 1) (fun _ _ => 1) (fun _ _ => 1) :
        SVD 1 1 1) 2 (fun _ => 1) (fun _ => 1) k)
      ((SVD.mk (fun _ => 1) (fun _ _ => 1) (fun _ _ => 1) : SVD 1 1 1).V 0) = 0 :=
  solve_truncated_direction_zero
    (SVD.mk (fun _ => 1) (fun _ _ => 1) (fun _ _ => 1)) 2
    (fun _ => 1) (fun _ => 1) 0
    (by intro i j; fin_cases i; fin_cases j; simp [dot])
    (by simp [sigmaMax])

end Omc3

namespace Omc3

/-- C4: for every weight vector with at least one nonzero weight and a
full-rank (all singular values nonzero) decomposed response matrix, the
solver is linear in the residual vector:
`solve(R, a·x1 + b·x2) = a·solve(R, x1) + b·solve(R, x2)`. -/
theorem solve_linear_in_residual {m n r : ℕ} (svd : SVD m n r) (cutoff : ℚ)
    (w : Fin m → ℚ) (a b : ℚ) (x1 x2 : Fin m → ℚ) (j : Fin n)
    (hw : ∃ i, w i ≠ 0) (hrank : ∀ i, svd.sigma i ≠ 0) :
    solve svd cutoff w (fun i => a * x1 i + b * x2 i) j
      = a * solve svd cutoff w x1 j + b * solve svd cutoff w x2 j := by
  unfold solve applyPinv
  rw [Finset.mul_sum, Finset.mul_sum, ← Finset.sum_add_distrib]
  refine Finset.sum_congr rfl (fun i _ => ?_)
  have hdot : dot (svd.U i) (fun t => w t * (a * x1 t + b * x2 t))
      = a * dot (svd.U i) (fun t => w t * x1 t)
        + b * dot (svd.U i) (fun t => w t * x2 t) := by
    unfold dot
    rw [Finset.mul_sum, Finset.mul_sum, ← Finset.sum_add_distrib]
    exact Finset.sum_congr rfl (fun t _ => by ring)
  rw [hdot]
  ring

/-- Witness for C4: rank-1 identity-like decomposition, unit weight,
`a = 2`, `b = 3`, residuals all ones. -/
theorem solve_linear_in_residual_witness :
    solve (SVD.mk (fun _ => 1) (fun _ _ => 1) (fun _ _ => 1) : SVD 1 1 1)
        (1/2) (fun _ => 1) (fun _ => 2 * 1 + 3 * 1) 0
      = 2 * solve (SVD.mk (fun _ => 1) (fun _ _ => 1) (fun _ _ => 1) :
            SVD 1 1 1) (1/2) (fun _ => 1) (fun _ => 1) 0
        + 3 * solve (SVD.mk (fun _ => 1) (fun _ _ => 1) (fun _ _ => 1) :
            SVD 1 1 1) (1/2) (fun _ => 1) (fun _ => 1) 0 :=
  solve_linear_in_residual
    (SVD.mk (fun _ => 1) (fun _ _ => 1) (fun _ _ => 1)) (1/2)
    (fun _ => 1) 2 3 (fun _ => 1) (fun _ => 1) 0
    ⟨0, one_ne_zero⟩ (fun _ => one_ne_zero)

end Omc3

namespace Omc3

/-! ## Iteration controller (Modelled from the spec, §4.4 and §7)

The controller source is not part of the excerpt (only its accuracy test
`test_lhc_global_correct` is).  The model below follows the
specification: validate `iterations ≥ 1` on entry, then run a
fixed-budget loop of solve→apply→remeasure steps; each step is a
fallible call producing a correction increment, increments accumulate
into the cumulative correction, and the first failure ends the run as
`FAILED`, keeping the partial cumulative correction and the error. -/

/-- Terminal status of a correction run. -/
inductive Status
  | DONE
  | FAILED
deriving DecidableEq

/-- Errors raised on entry, before any iteration step. -/
inductive CorrEntryError
  | invalidIterationCount
deriving DecidableEq

/-- Result of a run: terminal status, cumulative correction, the
triggering error of a failed run, and how many steps completed. -/
structure RunResult (δ E : Type) where
  status : Status
  cumulative : δ
  err : Option E
  stepsDone : ℕ
deriving DecidableEq

/-- Modelled from the spec: the iteration loop.  `stepFn k` performs the
`k`-th solve→apply→remeasure step (a fallible call on the solver and the
external model-building collaborator) and yields the correction
increment of that step.  `budget` steps remain, `k` is the index of the
next step, `acc` the cumulative correction, `cnt` the number of steps
completed so far. -/
def runSteps {δ E : Type} [AddCommMonoid δ] (stepFn : ℕ → Except E δ) :
    ℕ → ℕ → δ → ℕ → RunResult δ E
  | 0, _, acc, cnt => ⟨Status.DONE, acc, none, cnt⟩
  | budget + 1, k, acc, cnt =>
    match stepFn k with
    | Except.error e => ⟨Status.FAILED, acc, some e, cnt⟩
    | Except.ok d => runSteps stepFn budget (k + 1) (acc + d) (cnt + 1)

/-- Modelled from the spec: `run_global_correction` — validates the
iteration count on entry (`InvalidIterationCountError` for counts below
1) and then runs exactly `iterations` steps, numbered from 1. -/
def run_global_correction {δ E : Type} [AddCommMonoid δ]
    (iterations : ℕ) (stepFn : ℕ → Except E δ) :
    Except CorrEntryError (RunResult δ E) :=
  if iterations < 1 then Except.error CorrEntryError.invalidIterationCount
  else Except.ok (runSteps stepFn iterations 1 0 0)

end Omc3

namespace Omc3

/-- All-steps-succeed loop lemma: with a never-failing step function the
loop consumes its whole budget, ends `DONE` and counts every step. -/
lemma runSteps_all_ok {δ E : Type} [AddCommMonoid δ]
    (stepFn : ℕ → Except E δ) (hok : ∀ k, ∃ d, stepFn k = Except.ok d) :
    ∀ budget k acc cnt,
      (runSteps stepFn budget k acc cnt).status = Status.DONE ∧
        (runSteps stepFn budget k acc cnt).stepsDone = cnt + budget := by
  intro budget
  induction budget with
  | zero => intro k acc cnt; exact ⟨rfl, rfl⟩
  | succ m ih =>
    intro k acc cnt
    obtain ⟨d, hd⟩ := hok k
    rw [runSteps, hd]
    have := ih (k + 1) (acc + d) (cnt + 1)
    exact ⟨this.1, by rw [this.2]; omega⟩

/-- C5: for every iteration count `n ≥ 1` and every step function that
never fails, the controller executes exactly `n` solve→apply→remeasure
steps and terminates with status `DONE` — there is no internal
convergence test that could end the loop earlier or extend it. -/
theorem run_global_correction_exact_steps {δ E : Type} [AddCommMonoid δ]
    (n : ℕ) (stepFn : ℕ → Except E δ)
    (hn : 1 ≤ n) (hok : ∀ k, ∃ d, stepFn k = Except.ok d) :
    ∃ res : RunResult δ E,
      run_global_correction n stepFn = Except.ok res ∧
        res.stepsDone = n ∧ res.status = Status.DONE := by
  refine ⟨runSteps stepFn n 1 0 0, ?_, ?_, ?_⟩
  · rw [run_global_correction, if_neg (by omega)]
  · rw [(runSteps_all_ok stepFn hok n 1 0 0).2]
    omega
  · exact (runSteps_all_ok stepFn hok n 1 0 0).1

/-- Witness for C5: two iterations of a constant successful step. -/
theorem run_global_correction_exact_steps_witness :
    ∃ res : RunResult ℚ Unit,
      run_global_correction 2 (fun _ => Except.ok (1 : ℚ)) = Except.ok res ∧
        res.stepsDone = 2 ∧ res.status = Status.DONE :=
  run_global_correction_exact_steps 2 (fun _ => Except.ok (1 : ℚ))
    (by omega) (fun _ => ⟨1, rfl⟩)

/-- C6: invoking the correction run with an iteration count below 1
yields `InvalidIterationCountError` on entry, for every step function —
no solve step can influence or be performed in that run. -/
theorem run_global_correction_zero_iterations {δ E : Type} [AddCommMonoid δ]
    (iterations : ℕ) (stepFn : ℕ → Except E δ) (h : iterations < 1) :
    run_global_correction iterations stepFn
      = Except.error CorrEntryError.invalidIterationCount := by
  rw [run_global_correction, if_pos h]

/-- Witness for C6: `iterations = 0`. -/
theorem run_global_correction_zero_iterations_witness :
    run_global_correction 0 (fun _ => (Except.ok (0 : ℚ) : Except Unit ℚ))
      = Except.error CorrEntryError.invalidIterationCount :=
  run_global_correction_zero_iterations 0 (fun _ => Except.ok (0 : ℚ))
    (by omega)

end Omc3

namespace Omc3

/-- Failing-loop lemma: if every step from `k` up to (excluding) `K`
succeeds with increment `d j` and step `K` fails with `e`, a loop with
enough budget stops at `K`, keeps the increments accumulated so far and
reports the error. -/
lemma runSteps_fail_at {δ E : Type} [AddCommMonoid δ]
    (stepFn : ℕ → Except E δ) (d : ℕ → δ) (e : E) (K : ℕ)
    (hfail : stepFn K = Except.error e) :
    ∀ budget k acc cnt,
      (∀ j, k ≤ j → j < K → stepFn j = Except.ok (d j)) →
      k ≤ K → K < k + budget →
      runSteps stepFn budget k acc cnt
        = ⟨Status.FAILED, acc + ∑ j in Finset.Ico k K, d j, some e,
            cnt + (K - k)⟩ := by
  intro budget
  induction budget with
  | zero =>
    intro k acc cnt _ hk hK
    exact absurd hK (by omega)
  | succ m ih =>
    intro k acc cnt hsucc hk hK
    by_cases hkK : k = K
    · subst hkK
      rw [runSteps, hfail]
      simp
    · have hlt : k < K := lt_of_le_of_ne hk hkK
      rw [runSteps, hsucc k le_rfl hlt]
      show runSteps stepFn m (k + 1) (acc + d k) (cnt + 1) = _
      rw [ih (k + 1) (acc + d k) (cnt + 1)
          (fun j hj hj2 => hsucc j (by omega) hj2) hlt (by omega)]
      simp only [RunResult.mk.injEq, true_and, and_true]
      constructor
      · rw [Finset.sum_eq_sum_Ico_succ_bot hlt]
        exact add_assoc acc (d k) _
      · omega

/-- C7: if every step `1 .. K-1` succeeds with increment `d j` and step
`K ≤ n` fails with error `e`, the controller ends `FAILED` without
retrying, and the result still carries the cumulative correction of the
`K - 1` successful iterations together with the triggering error. -/
theorem run_global_correction_partial_on_failure {δ E : Type}
    [AddCommMonoid δ] (n K : ℕ) (stepFn : ℕ → Except E δ) (d : ℕ → δ)
    (e : E) (hK1 : 1 ≤ K) (hKn : K ≤ n)
    (hsucc : ∀ j, 1 ≤ j → j < K → stepFn j = Except.ok (d j))
    (hfail : stepFn K = Except.error e) :
    run_global_correction n stepFn
      = Except.ok ⟨Status.FAILED, ∑ j in Finset.Ico 1 K, d j, some e,
          K - 1⟩ := by
  rw [run_global_correction, if_neg (by omega),
    runSteps_fail_at stepFn d e K hfail n 1 0 0
      (fun j h1 h2 => hsucc j h1 h2) hK1 (by omega)]
  simp only [zero_add]

/-- Witness for C7: three requested iterations, constant increment `5`,
failure at step `2`: the run ends `FAILED` with the single successful
increment accumulated. -/
theorem run_global_correction_partial_on_failure_witness :
    run_global_correction 3
        (fun j => if j = 2 then Except.error () else Except.ok (5 : ℚ))
      = Except.ok ⟨Status.FAILED,
          ∑ j in Finset.Ico 1 2, (fun _ => (5 : ℚ)) j, some (), 1⟩ :=
  run_global_correction_partial_on_failure 3 2
    (fun j => if j = 2 then Except.error () else Except.ok (5 : ℚ))
    (fun _ => (5 : ℚ)) () (by omega) (by omega)
    (by
      intro j h1 h2
      have hj : j = 1 := by omega
      subst hj
      rfl)
    rfl

end Omc3

namespace Omc3

/-! ## TbT converter `_drop_elements` (from `omc3/tbt_converter.py`)

`_drop_elements` deep-copies the incoming `TbtData` and then drops rows
in place (`dataframe.drop(element, inplace=True)`) from the dataframes
of the copy.  To express the frame effect — the input object is never
mutated — the Python heap is made explicit: dataframes live in a
`Store`, a `TbtData` holds references into it, `deepcopy` duplicates the
referenced dataframes at fresh locations, and the drops write only
through the copy's references. -/

/-- A dataframe of one plane: BPM-named rows of turn-by-turn data. -/
structure Frame where
  rows : List (String × List ℚ)
deriving DecidableEq

/-- The object heap: a dataframe is identified by its index here. -/
abbrev Store := List Frame

/-- A `TbtData`: per bunch entry, references to its X and Y dataframes. -/
structure TbtData where
  matrices : List (ℕ × ℕ)
deriving DecidableEq

/-- Read the dataframe a reference points to (empty if dangling). -/
def readFrame (st : Store) (p : ℕ) : Frame := st.getD p ⟨[]⟩

/-- Overwrite the dataframe a reference points to. -/
def writeFrame (st : Store) (p : ℕ) (f : Frame) : Store := st.set p f

/-- The dataframe references of a list of entries, X before Y, in entry
order — the order in which `_drop_elements` visits the dataframes. -/
def pairsPtrs (l : List (ℕ × ℕ)) : List ℕ :=
  l.foldr (fun pq acc => pq.1 :: pq.2 :: acc) []

/-- The dataframe references of a `TbtData`. -/
def ptrList (t : TbtData) : List ℕ := pairsPtrs t.matrices

/-- One entry of `copy.deepcopy`: the entry's X and Y dataframes are
duplicated at the end of the store and the copy references them. -/
def copyStep (st : Store) (acc : Store × List (ℕ × ℕ)) (pq : ℕ × ℕ) :
    Store × List (ℕ × ℕ) :=
  (acc.1 ++ [readFrame st pq.1, readFrame st pq.2],
   acc.2 ++ [(acc.1.length, acc.1.length + 1)])

/-- Python `copy.deepcopy(tbt_data)`: every referenced dataframe is duplicated
at a fresh location; the returned `TbtData` references the copies. -/
def deepcopyTbt (st : Store) (t : TbtData) : Store × TbtData :=
  let res := t.matrices.foldl (copyStep st) (st, [])
  (res.1, ⟨res.2⟩)

/-- Pandas `DataFrame.drop(element, inplace=True)`: removes the rows labelled
`element`; `none` models the `KeyError` raised when no row matches. -/
def dropRow (f : Frame) (e : String) : Option Frame :=
  if f.rows.any (fun r => r.1 == e) then
    some ⟨f.rows.filter (fun r => r.1 != e)⟩
  else none

/-- The inner loops for one element: drop it in place from each
referenced dataframe in order; the first `KeyError` aborts the remaining
dataframes for this element (the exception is caught and logged), with
the writes already performed kept. -/
def dropElementFromPtrs (st : Store) (ps : List ℕ) (e : String) : Store :=
  match ps with
  | [] => st
  | p :: rest =>
    match dropRow (readFrame st p) e with
    | some f => dropElementFromPtrs (writeFrame st p f) rest e
    | none => st

/-- Source `_drop_elements(tbt_data, elements_to_drop)`: deep-copy, then drop
each element from the dataframes of the copy; returns the new heap and
the copied `TbtData`. -/
def drop_elements (st : Store) (t : TbtData) (els : List String) :
    Store × TbtData :=
  let cp := deepcopyTbt st t
  (els.foldl (fun s e => dropElementFromPtrs s (ptrList cp.2) e) cp.1,
   cp.2)

end Omc3

namespace Omc3

/-- Membership in `pairsPtrs`: exactly the components of the pairs. -/
lemma mem_pairsPtrs {q : ℕ} :
    ∀ {l : List (ℕ × ℕ)},
      q ∈ pairsPtrs l ↔ ∃ pq ∈ l, q = pq.1 ∨ q = pq.2 := by
  intro l
  induction l with
  | nil => simp [pairsPtrs]
  | cons pq rest ih =>
    show q ∈ pq.1 :: pq.2 :: pairsPtrs rest ↔ _
    simp only [List.mem_cons, ih]
    aesop

/-- The deep-copy fold only ever appends to the store, and every
reference it hands out is fresh (at or beyond the original length). -/
lemma copyStep_fold_invariant (st : Store) :
    ∀ (l : List (ℕ × ℕ)) (s0 : Store) (m0 : List (ℕ × ℕ)),
      (∃ ext, s0 = st ++ ext) →
      (∀ q ∈ pairsPtrs m0, st.length ≤ q) →
      (∃ ext, (l.foldl (copyStep st) (s0, m0)).1 = st ++ ext) ∧
        ∀ q ∈ pairsPtrs (l.foldl (copyStep st) (s0, m0)).2, st.length ≤ q := by
  intro l
  induction l with
  | nil => intro s0 m0 h1 h2; exact ⟨h1, h2⟩
  | cons pq rest ih =>
    intro s0 m0 h1 h2
    obtain ⟨ext, hext⟩ := h1
    have hlen : st.length ≤ s0.length := by
      rw [hext, List.length_append]
      omega
    rw [List.foldl_cons]
    refine ih _ _
      ⟨ext ++ [readFrame st pq.1, readFrame st pq.2], ?_⟩ ?_
    · show s0 ++ [readFrame st pq.1, readFrame st pq.2] = st ++ _
      rw [hext, List.append_assoc]
    · intro q hq
      rcases mem_pairsPtrs.mp hq with ⟨pq', hin, hor⟩
      rcases List.mem_append.mp hin with hin' | hin'
      · exact h2 q (mem_pairsPtrs.mpr ⟨pq', hin', hor⟩)
      · have : pq' = (s0.length, s0.length + 1) := List.mem_singleton.mp hin'
        subst this
        rcases hor with h | h <;> (subst h; simp only []; omega)

/-- Reading below the original length is unaffected by appending. -/
lemma readFrame_append (st ext : Store) (p : ℕ) (hp : p < st.length) :
    readFrame (st ++ ext) p = readFrame st p := by
  simp [readFrame, List.getD, List.getElem?_append_left hp]

/-- Dropping through references at or beyond `L` never changes a frame
below `L`. -/
lemma dropElementFromPtrs_preserves (e : String) :
    ∀ (ps : List ℕ) (st : Store) (L : ℕ),
      (∀ q ∈ ps, L ≤ q) → ∀ p, p < L →
      readFrame (dropElementFromPtrs st ps e) p = readFrame st p := by
  intro ps
  induction ps with
  | nil => intro st L _ p _; rfl
  | cons q rest ih =>
    intro st L hfresh p hp
    have hq : L ≤ q := hfresh q (List.mem_cons_self q rest)
    rw [dropElementFromPtrs]
    cases hdr : dropRow (readFrame st q) e with
    | none => rfl
    | some f =>
      show readFrame (dropElementFromPtrs (writeFrame st q f) rest e) p
          = readFrame st p
      rw [ih (writeFrame st q f) L
        (fun q' hq' => hfresh q' (List.mem_cons_of_mem q hq')) p hp]
      have hne : q ≠ p := by omega
      simp [readFrame, writeFrame, List.getD, List.getElem?_set_ne hne]

/-- Iterating the per-element drop over any element list keeps every
frame below `L` unchanged, when all visited references are at or
beyond `L`. -/
lemma foldl_drop_preserves (ptrs : List ℕ) (L : ℕ)
    (hfresh : ∀ q ∈ ptrs, L ≤ q) (p : ℕ) (hp : p < L) :
    ∀ (els : List String) (s : Store),
      readFrame (els.foldl (fun s e => dropElementFromPtrs s ptrs e) s) p
        = readFrame s p := by
  intro els
  induction els with
  | nil => intro s; rfl
  | cons e rest ih =>
    intro s
    rw [List.foldl_cons, ih, dropElementFromPtrs_preserves e ptrs s L hfresh p hp]

/-- C8: `_drop_elements` leaves its input `TbtData` unchanged — every
dataframe the input references reads back exactly as before the call
(all rows kept); only the deep copy is written to. -/
theorem drop_elements_input_unchanged (st : Store) (t : TbtData)
    (els : List String) (p : ℕ)
    (hvalid : ∀ q ∈ ptrList t, q < st.length) (hp : p ∈ ptrList t) :
    readFrame (drop_elements st t els).1 p = readFrame st p := by
  have hinv := copyStep_fold_invariant st t.matrices st []
    ⟨[], (List.append_nil st).symm⟩ (by intro q hq; cases hq)
  obtain ⟨⟨ext, hext⟩, hfresh⟩ := hinv
  have hplt : p < st.length := hvalid p hp
  show readFrame (els.foldl
      (fun s e => dropElementFromPtrs s (ptrList (deepcopyTbt st t).2) e)
      (deepcopyTbt st t).1) p = readFrame st p
  rw [foldl_drop_preserves (ptrList (deepcopyTbt st t).2) st.length
    (by intro q hq; exact hfresh q hq) p hplt els (deepcopyTbt st t).1]
  show readFrame (t.matrices.foldl (copyStep st) (st, [])).1 p = readFrame st p
  rw [hext, readFrame_append st ext p hplt]

/-- Witness for C8: a two-frame store, one X/Y entry, dropping `"A"`;
the input's X dataframe is untouched. -/
theorem drop_elements_input_unchanged_witness :
    readFrame (drop_elements
        [Frame.mk [("A", [1]), ("B", [2])], Frame.mk [("A", [3]), ("B", [4])]]
        (TbtData.mk [(0, 1)]) ["A"]).1 0
      = readFrame
          [Frame.mk [("A", [1]), ("B", [2])], Frame.mk [("A", [3]), ("B", [4])]]
          0 :=
  drop_elements_input_unchanged
    [Frame.mk [("A", [1]), ("B", [2])], Frame.mk [("A", [3]), ("B", [4])]]
    (TbtData.mk [(0, 1)]) ["A"] 0
    (by decide) (by decide)

end Omc3

namespace Omc3

/-! ## `Accelerator.beam_direction`
(from `omc3/model/accelerators/accelerator.py`) -/

/-- Exception `AcceleratorDefinitionError`, raised when an `Accelerator` instance
is wrongly used. -/
inductive AcceleratorDefinitionError
  | beamDirectionNotOne
deriving DecidableEq

/-- The `Accelerator` state relevant to the `beam_direction` property:
the private `_beam_direction` attribute. -/
structure Accelerator where
  beam_direction : ℤ
deriving DecidableEq

/-- Constructor `Accelerator.__init__`: `self._beam_direction = 1`. -/
def Accelerator.init : Accelerator := ⟨1⟩

/-- The `beam_direction` setter: `if value not in (1, -1)` raise
`AcceleratorDefinitionError` (the assignment never happens, so the
stored value is unchanged); otherwise store the value. -/
def setBeamDirection (acc : Accelerator) (value : ℤ) :
    Accelerator × Option AcceleratorDefinitionError :=
  if value = 1 ∨ value = -1 then
    ({ acc with beam_direction := value }, none)
  else
    (acc, some AcceleratorDefinitionError.beamDirectionNotOne)

/-- The state after a fresh instance followed by any sequence of setter
calls (raised errors caught by the caller, the instance kept). -/
def runBeamDirectionSets (vs : List ℤ) : Accelerator :=
  vs.foldl (fun acc v => (setBeamDirection acc v).1) Accelerator.init

end Omc3

namespace Omc3

/-- The setter keeps the `{1, -1}` invariant across any call sequence. -/
lemma foldl_setBeamDirection_invariant :
    ∀ (vs : List ℤ) (acc : Accelerator),
      (acc.beam_direction = 1 ∨ acc.beam_direction = -1) →
      ((vs.foldl (fun a v => (setBeamDirection a v).1) acc).beam_direction = 1 ∨
        (vs.foldl (fun a v => (setBeamDirection a v).1) acc).beam_direction = -1) := by
  intro vs
  induction vs with
  | nil => intro acc h; exact h
  | cons v rest ih =>
    intro acc h
    rw [List.foldl_cons]
    apply ih
    unfold setBeamDirection
    split_ifs with hv
    · rcases hv with h1 | h1 <;> simp [h1]
    · exact h

/-- C9: the `beam_direction` of an `Accelerator` is always `1` or `-1`:
it is initialized to `1`; the setter rejects every other value with
`AcceleratorDefinitionError` while leaving the stored value unchanged;
and after any sequence of setter calls the stored value is `1` or `-1`. -/
theorem beam_direction_invariant :
    Accelerator.init.beam_direction = 1 ∧
    (∀ (acc : Accelerator) (v : ℤ), v ≠ 1 → v ≠ -1 →
      setBeamDirection acc v
        = (acc, some AcceleratorDefinitionError.beamDirectionNotOne)) ∧
    (∀ vs : List ℤ, (runBeamDirectionSets vs).beam_direction = 1 ∨
      (runBeamDirectionSets vs).beam_direction = -1) := by
  refine ⟨rfl, ?_, ?_⟩
  · intro acc v h1 h2
    rw [setBeamDirection, if_neg (by tauto)]
  · intro vs
    exact foldl_setBeamDirection_invariant vs Accelerator.init (Or.inl rfl)

/-- Witness for C9: setting `5` on a fresh instance is rejected and the
stored direction stays `1`. -/
theorem beam_direction_invariant_witness :
    setBeamDirection Accelerator.init 5
      = (Accelerator.init, some AcceleratorDefinitionError.beamDirectionNotOne) :=
  beam_direction_invariant.2.1 Accelerator.init 5 (by decide) (by decide)

end Omc3

namespace Omc3

/-! ## `Accelerator.get_element_types_mask`
(from `omc3/model/accelerators/accelerator.py`) -/

/-- The class attribute `RE_DICT` of the base `Accelerator`: the pattern
for each element type (`bpm`, `magnet`, `arc_bpm`), all `.*` here. -/
def RE_DICT : List (String × String) :=
  [("bpm", ".*"), ("magnet", ".*"), ("arc_bpm", ".*")]

/-- Dictionary lookup `cls.RE_DICT[ty]` as an optional value. -/
def reLookup (ty : String) : Option String :=
  (RE_DICT.find? (fun kv => kv.1 == ty)).map (fun kv => kv.2)

/-- The exceptions `get_element_types_mask` can raise: `TypeError`
listing the unknown types, or `IndexError` from `types[0]` on an empty
`types` argument. -/
inductive MaskError
  | typeError (unknown : List String)
  | indexError
deriving DecidableEq

/-- Source `get_element_types_mask(list_of_elements, types)`.  The argument
`reMatch pat s` stands for the case-insensitive
`pandas.Series.str.match(pat, case=False)` applied to one string.
Types missing from `RE_DICT` raise `TypeError`; otherwise the mask of
`types[0]` is built first and the masks of the remaining types are
or-ed onto it in a loop. -/
def get_element_types_mask (reMatch : String → String → Bool)
    (list_of_elements : List String) (types : List String) :
    Except MaskError (List Bool) :=
  let unknown_elements := types.filter (fun ty => (reLookup ty).isNone)
  if unknown_elements.length ≠ 0 then
    Except.error (MaskError.typeError unknown_elements)
  else
    match types with
    | [] => Except.error MaskError.indexError
    | ty0 :: rest =>
      Except.ok (rest.foldl
        (fun mask ty => List.zipWith or mask
          (list_of_elements.map (fun e => reMatch ((reLookup ty).getD "") e)))
        (list_of_elements.map (fun e => reMatch ((reLookup ty0).getD "") e)))

end Omc3

namespace Omc3

/-- Or-folding the per-type masks computes, per element, "matches at
least one of the processed types". -/
lemma foldl_or_mask (reMatch : String → String → Bool)
    (elements : List String) :
    ∀ (ts : List String) (p : String → Bool),
      ts.foldl
        (fun mask ty => List.zipWith or mask
          (elements.map (fun e => reMatch ((reLookup ty).getD "") e)))
        (elements.map p)
      = elements.map (fun e =>
          p e || ts.any (fun ty => reMatch ((reLookup ty).getD "") e)) := by
  intro ts
  induction ts with
  | nil => intro p; simp
  | cons t ts' ih =>
    intro p
    rw [List.foldl_cons, List.zipWith_map, List.zipWith_same,
      ih (fun e => p e || reMatch ((reLookup t).getD "") e)]
    refine congrArg (fun f => List.map f elements) (funext fun e => ?_)
    simp [Bool.or_assoc]

/-- C10: for every matcher, element list and nonempty type list,
`get_element_types_mask` raises `TypeError` (listing the offenders) when
some requested type is not a key of `RE_DICT`, and otherwise returns one
boolean per element — the length equals the number of elements — that is
true exactly when the element matches at least one requested type's
pattern. -/
theorem get_element_types_mask_spec (reMatch : String → String → Bool)
    (list_of_elements types : List String) (hne : types ≠ []) :
    get_element_types_mask reMatch list_of_elements types
      = if types.all (fun ty => (reLookup ty).isSome) then
          Except.ok (list_of_elements.map (fun e =>
            types.any (fun ty => reMatch ((reLookup ty).getD "") e)))
        else
          Except.error (MaskError.typeError
            (types.filter (fun ty => (reLookup ty).isNone))) := by
  match types with
  | [] => exact absurd rfl hne
  | ty0 :: rest =>
    rw [get_element_types_mask]
    by_cases hall : (ty0 :: rest).all (fun ty => (reLookup ty).isSome)
    · have hfilter : (ty0 :: rest).filter (fun ty => (reLookup ty).isNone) = [] := by
        rw [List.filter_eq_nil_iff]
        intro ty hty
        rw [Option.isNone_iff_eq_none]
        exact Option.isSome_iff_ne_none.mp ((List.all_eq_true.mp hall) ty hty)
      rw [if_pos hall]
      simp only [hfilter, List.length_nil, ne_eq, not_true_eq_false, if_false]
      rw [foldl_or_mask reMatch list_of_elements rest]
      refine congrArg Except.ok
        (congrArg (fun f => List.map f list_of_elements) (funext fun e => ?_))
      rw [List.any_cons]
    · have hfilter : (ty0 :: rest).filter (fun ty => (reLookup ty).isNone) ≠ [] := by
        intro hcontra
        apply hall
        rw [List.all_eq_true]
        intro ty hty
        have hnm := List.filter_eq_nil_iff.mp hcontra ty hty
        rw [Option.isNone_iff_eq_none] at hnm
        exact Option.isSome_iff_ne_none.mpr hnm
      rw [if_neg hall, if_pos (by simpa [List.length_eq_zero] using hfilter)]

/-- Witness for C10: two elements, the known types `bpm` and `magnet`,
and a matcher accepting everything. -/
theorem get_element_types_mask_spec_witness :
    get_element_types_mask (fun _ _ => true) ["BPM.1", "MQ.2"]
        ["bpm", "magnet"]
      = if ["bpm", "magnet"].all (fun ty => (reLookup ty).isSome) then
          Except.ok (["BPM.1", "MQ.2"].map (fun e =>
            ["bpm", "magnet"].any (fun ty =>
              (fun _ _ => true) ((reLookup ty).getD "") e)))
        else
          Except.error (MaskError.typeError
            (["bpm", "magnet"].filter (fun ty => (reLookup ty).isNone))) :=
  get_element_types_mask_spec (fun _ _ => true) ["BPM.1", "MQ.2"]
    ["bpm", "magnet"] (List.cons_ne_nil _ _)

end Omc3
